import Mathlib

/-!
Verification of the change-detection and polling pipeline of the
bluebubbles-server repository against its design specification.

The embedding models, from the source:

* `IMessageListener` (packages/server/src/server/databases/imessage/listeners/
  IMessageListener.ts): `getEarliestModifiedDate`, `start`, `stop`,
  `handleChangeEvent` and `poll`.  The effectful method bodies are embedded as
  functions producing an explicit trace of `Action`s (lock operations,
  watermark writes, poller invocations, event emissions, cache trims, delays)
  together with the resulting `lastCheck` watermark.  A poller that throws is
  modelled as an `Except.error`; the thrown exception propagates exactly as a
  rejected `await` does in the source (no `try`/`catch` and no `try`/`finally`
  appear in the source methods).
* `getCacheName` (imessage helpers): the dedup cache key
  `guid:delivered:read`, with JavaScript number-to-decimal-string formatting
  modelled by `natChars`/`intChars`.
* The `DebounceSubsequentWithWait` decorator, whose implementation module is
  not part of the snapshot, is modelled from the spec (`debounceRun`).
-/

/-- Result of one poller invocation: an event type plus an opaque payload
(source: objects `{eventType, data}` returned by `IMessagePoller.poll`). -/
structure PollResult where
  eventType : String
  data : Nat
  deriving DecidableEq

/-- File metadata as used by the listener: only the modification time in
milliseconds (`mtimeMs`) is consulted by the source. -/
structure FileStat where
  mtimeMs : Int
  deriving DecidableEq

/-- Change event delivered by the `MultiFileWatcher`: the changed path plus
the previous and current stat (source: `FileChangeEvent`). -/
structure FileChangeEvent where
  filePath : String
  prevStat : FileStat
  currentStat : FileStat
  deriving DecidableEq

/-- A message row as consumed by `getCacheName`: its `guid` and the optional
`dateDelivered` / `dateRead` timestamps (a `Date` is represented by its
`getTime()` value in milliseconds). -/
structure Message where
  guid : String
  dateDelivered : Option Int
  dateRead : Option Int

/-- Decimal digit characters of a natural number, most significant first:
the JavaScript decimal rendering of a non-negative integer used by template
literal interpolation. -/
def natChars (n : Nat) : List Char :=
  if h : n < 10 then [Char.ofNat (48 + n)]
  else natChars (n / 10) ++ [Char.ofNat (48 + n % 10)]
  termination_by n
  decreasing_by exact Nat.div_lt_self (by omega) (by omega)

/-- JavaScript decimal rendering of a (possibly negative) integer. -/
def intChars (i : Int) : List Char :=
  if i < 0 then '-' :: natChars i.natAbs else natChars i.toNat

/-- Dedup cache key (source: `getCacheName`): the template literal
`guid:delivered:read` where `delivered`/`read` are the `getTime()` values of
`dateDelivered`/`dateRead`, or `0` when the date is absent. -/
def getCacheName (message : Message) : String :=
  let delivered : Int := message.dateDelivered.getD 0
  let read : Int := message.dateRead.getD 0
  String.mk (message.guid.data ++ ':' :: intChars delivered ++ ':' :: intChars read)

/-- Modelled from the spec: the `DebounceSubsequentWithWait` decorator applied
to `handleChangeEvent` with a 500 ms wait.  Its implementation module
(`@server/lib/decorators/DebounceDecorator`) is not in the repository
snapshot, so the gate is modelled from section 4.1 of the specification:
an invocation while no call is pending schedules execution after `wait`
milliseconds; an invocation while a call is pending replaces the pending
call's arguments (updating them to the latest invocation) instead of stacking
timers.  `debounceRun wait pending invocations` processes a time-ordered list
of `(arrivalTime, argument)` invocations starting from an optional pending
`(fireTime, argument)` timer, and returns the list of executions
`(fireTime, argument)` that actually fire (the final pending timer fires at
the end). -/
def debounceRun {α : Type} (wait : Int) : Option (Int × α) → List (Int × α) → List (Int × α)
  | none, [] => []
  | some p, [] => [p]
  | none, (t, a) :: rest => debounceRun wait (some (t + wait, a)) rest
  | some (ft, pa), (t, a) :: rest =>
    if ft ≤ t then (ft, pa) :: debounceRun wait (some (t + wait, a)) rest
    else debounceRun wait (some (t + wait, a)) rest

namespace IMessageListener

/-- A registered source poller (source: `IMessagePoller.poll(after)`), which
either returns its results or throws. -/
def IMessagePoller : Type := Int → Except String (List PollResult)

/-- Observable steps performed by the listener's method bodies, in program
order. -/
inductive Action where
  | acquire
  | release
  | setLastCheck (v : Int)
  | setStopped (b : Bool)
  | pollCall (after : Int) (emit : Bool)
  | pollerInvoke (after : Int)
  | emitEvent (eventType : String) (data : Nat)
  | trimCaches
  | wait (ms : Int)
  | watcherStart
  | throwErr (msg : String)
  deriving DecidableEq

/-- True exactly for the actions produced inside the body of `poll`. -/
def isPollAct : Action → Bool
  | Action.pollerInvoke _ => true
  | Action.emitEvent _ _ => true
  | _ => false

/-- True exactly for poller invocations. -/
def isPollerInvoke : Action → Bool
  | Action.pollerInvoke _ => true
  | _ => false

/-- True exactly for event emissions to the event sink. -/
def isEmitEvent : Action → Bool
  | Action.emitEvent _ _ => true
  | _ => false

/-- True exactly for calls of the `poll` method. -/
def isPollCall : Action → Bool
  | Action.pollCall _ _ => true
  | _ => false

/-- Number of poller invocations in a trace. -/
def countPollerInvokes (l : List Action) : Nat :=
  (l.filter isPollerInvoke).length

/-- Number of `poll` method calls in a trace. -/
def countPollCalls (l : List Action) : Nat :=
  (l.filter isPollCall).length

/-- Whether a `wait 100` settle delay occurs strictly after a `release` in
the trace. -/
def delayAfterRelease : List Action → Bool
  | [] => false
  | Action.release :: rest =>
    if Action.wait 100 ∈ rest then true else delayAfterRelease rest
  | _ :: rest => delayAfterRelease rest

/-- Checks that every watermark write (`setLastCheck`) in the trace happens
while the coordination lock is held; the second argument is whether the lock
is held before the trace starts. -/
def heldDuring : List Action → Bool → Bool
  | [], _ => true
  | a :: rest, held =>
    match a with
    | Action.acquire => heldDuring rest true
    | Action.release => heldDuring rest false
    | Action.setLastCheck _ => held && heldDuring rest held
    | _ => heldDuring rest held

/-- Embedding of `IMessageListener.poll(after, emitResults)`: iterate the
registered pollers in order; `await poller.poll(after)` either yields results
(which are each emitted when `emitResults` is true) or throws, in which case
the loop aborts and the error propagates (the source has no `try`/`catch`
inside the loop).  Returns the trace of actions and the propagated error, if
any. -/
def poll (pollers : List IMessagePoller) (after : Int) (emitResults : Bool) :
    List Action × Option String :=
  match pollers with
  | [] => ([], none)
  | p :: rest =>
    match p after with
    | Except.error e => ([Action.pollerInvoke after], some e)
    | Except.ok results =>
      let tail := poll rest after emitResults
      (Action.pollerInvoke after ::
        ((if emitResults then results.map (fun r => Action.emitEvent r.eventType r.data) else []) ++ tail.1),
        tail.2)

/-- Embedding of `getEarliestModifiedDate()`: starts from the current time
(`new Date()`, as milliseconds) and takes each watched path's `mtime` when it
is earlier than the running minimum. -/
def getEarliestModifiedDate (now : Int) (mtimes : List Int) : Int :=
  mtimes.foldl (fun earliest m => if m < earliest then m else earliest) now

/-- Embedding of `start()`: sets `lastCheck = 0` and `stopped = false`, runs
one poll with `after = getEarliestModifiedDate() - 60000` and
`emitResults = false`, then creates and starts the watcher.  A poll error
propagates out of `start` before the watcher is started.  Returns the trace
and the resulting `lastCheck`. -/
def start (pollers : List IMessagePoller) (now : Int) (mtimes : List Int) :
    List Action × Int :=
  match poll pollers (getEarliestModifiedDate now mtimes - 60000) false with
  | (acts, some e) =>
    (Action.setLastCheck 0 :: Action.setStopped false ::
      Action.pollCall (getEarliestModifiedDate now mtimes - 60000) false ::
      acts ++ [Action.throwErr e], 0)
  | (acts, none) =>
    (Action.setLastCheck 0 :: Action.setStopped false ::
      Action.pollCall (getEarliestModifiedDate now mtimes - 60000) false ::
      acts ++ [Action.watcherStart], 0)

/-- Embedding of the body of `handleChangeEvent(event)` (the code the
debounce gate eventually executes): acquire the lock; if
`event.currentStat.mtimeMs > lastCheck` then set
`lastCheck = event.currentStat.mtimeMs`, run an emitting poll with
`after = event.prevStat.mtimeMs - 30000`, trim the caches, wait 100 ms when
other callers are waiting on the lock, and release; otherwise release
immediately.  A poll error propagates out of the method body, skipping the
trim, the delay and the release (the source has no `try`/`finally`).
`nrWaiting` is the value of `processLock.nrWaiting()`.  Returns the trace and
the resulting `lastCheck`. -/
def handleChangeEvent (pollers : List IMessagePoller) (nrWaiting : Nat)
    (lastCheck : Int) (event : FileChangeEvent) : List Action × Int :=
  if event.currentStat.mtimeMs > lastCheck then
    match poll pollers (event.prevStat.mtimeMs - 30000) true with
    | (acts, some e) =>
      (Action.acquire :: Action.setLastCheck event.currentStat.mtimeMs ::
        Action.pollCall (event.prevStat.mtimeMs - 30000) true ::
        acts ++ [Action.throwErr e], event.currentStat.mtimeMs)
    | (acts, none) =>
      (Action.acquire :: Action.setLastCheck event.currentStat.mtimeMs ::
        Action.pollCall (event.prevStat.mtimeMs - 30000) true ::
        acts ++ [Action.trimCaches] ++
        (if 0 < nrWaiting then [Action.wait 100] else []) ++ [Action.release],
        event.currentStat.mtimeMs)
  else
    ([Action.acquire, Action.release], lastCheck)

/-- Subscription-related listener state: the `stopped` flag, the number of
event-sink listeners registered on the listener itself (the ones
`removeAllListeners()` removes), whether the `change` handler registered on
the `MultiFileWatcher` in `start()` is still in place, and a debounced
`handleChangeEvent` execution that is scheduled but has not fired yet. -/
structure ListenerWiring where
  stopped : Bool
  selfListeners : Nat
  watcherSubscribed : Bool
  pendingDebounced : Option FileChangeEvent
  deriving DecidableEq

/-- Embedding of `stop()`: sets `stopped = true` and calls
`removeAllListeners()`, which removes the listeners registered on the
listener object itself.  No other field is touched: the source never calls
any method of `watcher` and never cancels the debounce timer. -/
def stop (st : ListenerWiring) : ListenerWiring :=
  { st with stopped := true, selfListeners := 0 }

end IMessageListener

/-- Concrete change event used by witnesses and counterexamples:
`prevStat.mtimeMs = 50000`, `currentStat.mtimeMs = 100000`. -/
def evW : FileChangeEvent := ⟨"chat.db", ⟨50000⟩, ⟨100000⟩⟩

/-- Concrete poller that succeeds with a single result. -/
def pollerGood : IMessageListener.IMessagePoller :=
  fun _ => Except.ok [⟨"new-message", 7⟩]

/-- Concrete poller that throws. -/
def pollerBad : IMessageListener.IMessagePoller :=
  fun _ => Except.error "db locked"

namespace IMessageListener

lemma poll_acts (pollers : List IMessagePoller) (after : Int) (em : Bool) :
    ∀ a ∈ (poll pollers after em).1, isPollAct a = true := by
  induction pollers with
  | nil => simp [poll]
  | cons p rest ih =>
    intro a ha
    cases hp : p after with
    | error e =>
      simp [poll, hp] at ha
      simp [ha, isPollAct]
    | ok rs =>
      simp [poll, hp] at ha
      rcases ha with ha | ha | ha
      · simp [ha, isPollAct]
      · rcases em with _ | _
        · simp at ha
        · simp at ha
          obtain ⟨r, _, hr⟩ := ha
          simp [← hr, isPollAct]
      · exact ih a ha

lemma not_mem_of_pollActs {x : Action} (l : List Action)
    (h : ∀ a ∈ l, isPollAct a = true) (hx : isPollAct x = false) : x ∉ l := by
  intro hm
  rw [h x hm] at hx
  exact absurd hx (by simp)

lemma poll_no_emit (pollers : List IMessagePoller) (after : Int) :
    ∀ a ∈ (poll pollers after false).1, isEmitEvent a = false := by
  induction pollers with
  | nil => simp [poll]
  | cons p rest ih =>
    intro a ha
    cases hp : p after with
    | error e =>
      simp [poll, hp] at ha
      simp [ha, isEmitEvent]
    | ok rs =>
      simp [poll, hp] at ha
      rcases ha with ha | ha
      · simp [ha, isEmitEvent]
      · exact ih a ha

lemma poll_append (ps1 ps2 : List IMessagePoller) (after : Int) (em : Bool)
    (h : (poll ps1 after em).2 = none) :
    poll (ps1 ++ ps2) after em =
      ((poll ps1 after em).1 ++ (poll ps2 after em).1, (poll ps2 after em).2) := by
  induction ps1 with
  | nil => simp [poll]
  | cons p rest ih =>
    cases hp : p after with
    | error e => simp [poll, hp] at h
    | ok rs =>
      simp [poll, hp] at h ⊢
      rw [ih h]
      exact ⟨rfl, rfl⟩

lemma countPollerInvokes_append (l1 l2 : List Action) :
    countPollerInvokes (l1 ++ l2) = countPollerInvokes l1 + countPollerInvokes l2 := by
  simp [countPollerInvokes, List.filter_append]

lemma countPollerInvokes_emits (rs : List PollResult) :
    countPollerInvokes (rs.map (fun r => Action.emitEvent r.eventType r.data)) = 0 := by
  induction rs with
  | nil => simp [countPollerInvokes]
  | cons r rest ih =>
    simp [countPollerInvokes, List.filter_cons, isPollerInvoke, ih]

lemma countPollerInvokes_cons_invoke (x : Int) (l : List Action) :
    countPollerInvokes (Action.pollerInvoke x :: l) = countPollerInvokes l + 1 := by
  simp [countPollerInvokes, List.filter_cons, isPollerInvoke]

lemma poll_count (pollers : List IMessagePoller) (after : Int) (em : Bool)
    (h : (poll pollers after em).2 = none) :
    countPollerInvokes (poll pollers after em).1 = pollers.length := by
  induction pollers with
  | nil => simp [poll, countPollerInvokes]
  | cons p rest ih =>
    cases hp : p after with
    | error e => simp [poll, hp] at h
    | ok rs =>
      have h2 : (poll rest after em).2 = none := by
        rw [← h]; simp [poll, hp]
      have hemits : countPollerInvokes
          (if em then rs.map (fun r => Action.emitEvent r.eventType r.data) else []) = 0 := by
        cases em with
        | false => simp [countPollerInvokes]
        | true => simpa using countPollerInvokes_emits rs
      have h1 : (poll (p :: rest) after em).1 = Action.pollerInvoke after ::
          ((if em then rs.map (fun r => Action.emitEvent r.eventType r.data) else []) ++
            (poll rest after em).1) := by
        simp [poll, hp]
      rw [h1, countPollerInvokes_cons_invoke, countPollerInvokes_append, hemits, ih h2]
      simp

lemma poll_error_head (bad : IMessagePoller) (ps2 : List IMessagePoller)
    (after : Int) (em : Bool) (e : String) (hbad : bad after = Except.error e) :
    poll (bad :: ps2) after em = ([Action.pollerInvoke after], some e) := by
  simp [poll, hbad]

end IMessageListener

namespace IMessageListener

lemma heldDuring_pollActs (l : List Action) (h : ∀ a ∈ l, isPollAct a = true)
    (tl : List Action) (b : Bool) : heldDuring (l ++ tl) b = heldDuring tl b := by
  induction l with
  | nil => rfl
  | cons a rest ih =>
    have ha := h a (List.mem_cons_self a rest)
    have hrest : ∀ x ∈ rest, isPollAct x = true :=
      fun x hx => h x (List.mem_cons_of_mem a hx)
    cases a <;> simp [isPollAct] at ha <;> simpa [heldDuring] using ih hrest

/-- Claim C3 (confirmed): a change event whose `currentStat.mtimeMs` is at
most the current watermark runs zero polls (no `poll` call, no poller
invocation), leaves the watermark unchanged, and the handler body is just
acquire followed by release. -/
theorem stale_change_ignored (pollers : List IMessagePoller) (w : Nat)
    (lc : Int) (ev : FileChangeEvent) (hle : ev.currentStat.mtimeMs ≤ lc) :
    handleChangeEvent pollers w lc ev = ([Action.acquire, Action.release], lc) ∧
    countPollCalls (handleChangeEvent pollers w lc ev).1 = 0 ∧
    countPollerInvokes (handleChangeEvent pollers w lc ev).1 = 0 ∧
    (handleChangeEvent pollers w lc ev).2 = lc := by
  have hnot : ¬ (ev.currentStat.mtimeMs > lc) := not_lt.mpr hle
  refine ⟨?_, ?_, ?_, ?_⟩ <;>
    simp [handleChangeEvent, hnot, countPollCalls, countPollerInvokes,
      List.filter, isPollCall, isPollerInvoke]

/-- Witness for `stale_change_ignored` at the concrete event `evW` with
watermark 200000. -/
theorem stale_change_ignored_witness :
    handleChangeEvent [] 0 200000 evW = ([Action.acquire, Action.release], 200000) ∧
    countPollCalls (handleChangeEvent [] 0 200000 evW).1 = 0 ∧
    countPollerInvokes (handleChangeEvent [] 0 200000 evW).1 = 0 ∧
    (handleChangeEvent [] 0 200000 evW).2 = 200000 :=
  stale_change_ignored [] 0 200000 evW (by decide)

/-- Claim C1 counterexample: at the concrete fresh change event `evW`
(`prevStat.mtimeMs = 50000`, `currentStat.mtimeMs = 100000`, watermark 0) the
handler sets the watermark to 100000 (the event's `currentStat.mtimeMs`), not
to `previousModTime - 30000 = 20000` as claimed: no `setLastCheck 20000`
action occurs and the resulting watermark differs from 20000. -/
theorem handleChangeEvent_watermark_cex :
    (handleChangeEvent [] 0 0 evW).2 = 100000 ∧
    evW.prevStat.mtimeMs - 30000 = 20000 ∧
    Action.setLastCheck 20000 ∉ (handleChangeEvent [] 0 0 evW).1 ∧
    (handleChangeEvent [] 0 0 evW).2 ≠ 20000 := by decide

/-- Claim C4 counterexample: with current time 100000 and a single watched
path of mtime 90000, the seed timestamp `min(mtime) - 60000` is 30000, yet
`start` sets the watermark (`lastCheck`) to 0, not 30000: the claimed seeding
of the watermark does not happen. -/
theorem start_watermark_cex :
    (start [] 100000 [90000]).2 = 0 ∧
    getEarliestModifiedDate 100000 [90000] - 60000 = 30000 ∧
    (start [] 100000 [90000]).2 ≠ 30000 ∧
    Action.setLastCheck 30000 ∉ (start [] 100000 [90000]).1 := by decide

/-- Claim C8 counterexample: in an emitting cycle with one waiter
(`nrWaiting = 1`) the 100 ms delay action and the release action both occur,
but no `wait 100` occurs after the `release`: the delay is taken while the
lock is still held, contrary to the claim that it is inserted after the lock
is released. -/
theorem settle_delay_position_cex :
    Action.wait 100 ∈ (handleChangeEvent [] 1 0 evW).1 ∧
    Action.release ∈ (handleChangeEvent [] 1 0 evW).1 ∧
    delayAfterRelease (handleChangeEvent [] 1 0 evW).1 = false := by decide

/-- Claim C6 counterexample: starting from a state where the watcher `change`
subscription is in place and a debounced execution is pending, `stop()`
neither removes the watcher subscription nor cancels the pending execution. -/
theorem stop_cancellation_cex :
    ¬ ((stop ⟨false, 2, true, some evW⟩).watcherSubscribed = false ∧
       (stop ⟨false, 2, true, some evW⟩).pendingDebounced = none) ∧
    (stop ⟨false, 2, true, some evW⟩).watcherSubscribed = true ∧
    (stop ⟨false, 2, true, some evW⟩).pendingDebounced = some evW := by decide

/-- Claim C6 (corrected): `stop()` sets the `stopped` flag and removes the
listener's own event-sink subscriptions (`removeAllListeners`), but leaves
the Change Notifier subscription in place and does not cancel an
already-scheduled debounced execution, which remains pending after `stop`. -/
theorem stop_behavior (st : ListenerWiring) :
    (stop st).stopped = true ∧ (stop st).selfListeners = 0 ∧
    (stop st).watcherSubscribed = st.watcherSubscribed ∧
    (stop st).pendingDebounced = st.pendingDebounced := by
  simp [stop]

lemma gEMD_spec : ∀ (mtimes : List Int) (now : Int),
    getEarliestModifiedDate now mtimes ≤ now ∧
    (∀ t ∈ mtimes, getEarliestModifiedDate now mtimes ≤ t) ∧
    (getEarliestModifiedDate now mtimes = now ∨ getEarliestModifiedDate now mtimes ∈ mtimes) := by
  intro mtimes
  induction mtimes with
  | nil => intro now; simp [getEarliestModifiedDate]
  | cons m rest ih =>
    intro now
    have hstep : getEarliestModifiedDate now (m :: rest) =
        getEarliestModifiedDate (if m < now then m else now) rest := by
      simp [getEarliestModifiedDate]
    have h := ih (if m < now then m else now)
    refine ⟨?_, ?_, ?_⟩
    · rw [hstep]
      exact le_trans h.1 (by split <;> omega)
    · intro t ht
      rcases List.mem_cons.mp ht with rfl | ht'
      · rw [hstep]
        exact le_trans h.1 (by split <;> omega)
      · rw [hstep]
        exact h.2.1 t ht'
    · rw [hstep]
      by_cases hmi : m < now
      · rw [if_pos hmi]
        rcases (ih m).2.2 with heq | hmem
        · right
          rw [heq]
          exact List.mem_cons_self m rest
        · right
          exact List.mem_cons_of_mem m hmem
      · rw [if_neg hmi]
        rcases (ih now).2.2 with heq | hmem
        · left
          exact heq
        · right
          exact List.mem_cons_of_mem m hmem

/-- Claim C10 (confirmed): `getEarliestModifiedDate` returns the minimum of
the current time and the watched paths' modification times: it is never later
than the current time, it is a lower bound of all watched mtimes, it is the
current time or one of the mtimes, it is the current time for an empty path
list, and the seed timestamp `getEarliestModifiedDate - 60000` is at least
60 seconds before the moment `start()` runs. -/
theorem getEarliestModifiedDate_min (now : Int) (mtimes : List Int) :
    getEarliestModifiedDate now mtimes ≤ now ∧
    (∀ t ∈ mtimes, getEarliestModifiedDate now mtimes ≤ t) ∧
    (getEarliestModifiedDate now mtimes = now ∨ getEarliestModifiedDate now mtimes ∈ mtimes) ∧
    getEarliestModifiedDate now [] = now ∧
    getEarliestModifiedDate now mtimes - 60000 ≤ now - 60000 := by
  have h := gEMD_spec mtimes now
  exact ⟨h.1, h.2.1, h.2.2, rfl, by omega⟩

/-- Witness for `getEarliestModifiedDate_min` at current time 100000 and
mtimes 90000 and 95000. -/
theorem getEarliestModifiedDate_min_witness :
    getEarliestModifiedDate 100000 [90000, 95000] ≤ 100000 ∧
    (∀ t ∈ [(90000 : Int), 95000], getEarliestModifiedDate 100000 [90000, 95000] ≤ t) ∧
    (getEarliestModifiedDate 100000 [90000, 95000] = 100000 ∨
      getEarliestModifiedDate 100000 [90000, 95000] ∈ [(90000 : Int), 95000]) ∧
    getEarliestModifiedDate (100000 : Int) [] = 100000 ∧
    getEarliestModifiedDate 100000 [90000, 95000] - 60000 ≤ 100000 - 60000 :=
  getEarliestModifiedDate_min 100000 [90000, 95000]

end IMessageListener

namespace IMessageListener

/-- Claim C1 (corrected): for a change event with `currentStat.mtimeMs`
strictly above the watermark, the handler updates the watermark to the
event's `currentStat.mtimeMs` (not to `previousModTime - 30000`) before
polling, then runs a poll with emission enabled using
`prevStat.mtimeMs - 30000` as the `after` window, and then trims the
caches. -/
theorem handleChangeEvent_fresh_change (pollers : List IMessagePoller) (w : Nat)
    (lc : Int) (ev : FileChangeEvent) (hgt : lc < ev.currentStat.mtimeMs)
    (hok : (poll pollers (ev.prevStat.mtimeMs - 30000) true).2 = none) :
    ∃ inner rest,
      (handleChangeEvent pollers w lc ev).1 =
        Action.acquire :: Action.setLastCheck ev.currentStat.mtimeMs ::
          Action.pollCall (ev.prevStat.mtimeMs - 30000) true ::
          inner ++ Action.trimCaches :: rest ∧
      (∀ a ∈ inner, isPollAct a = true) ∧
      (handleChangeEvent pollers w lc ev).2 = ev.currentStat.mtimeMs := by
  rcases hpoll : poll pollers (ev.prevStat.mtimeMs - 30000) true with ⟨acts, err⟩
  rw [hpoll] at hok
  simp only at hok
  subst hok
  have hacts := poll_acts pollers (ev.prevStat.mtimeMs - 30000) true
  rw [hpoll] at hacts
  refine ⟨acts, (if 0 < w then [Action.wait 100] else []) ++ [Action.release], ?_, hacts, ?_⟩
  · simp [handleChangeEvent, hgt, hpoll, List.append_assoc]
  · simp [handleChangeEvent, hgt, hpoll]

/-- Witness for `handleChangeEvent_fresh_change` at the concrete event `evW`
with one succeeding poller. -/
theorem handleChangeEvent_fresh_change_witness :
    ∃ inner rest,
      (handleChangeEvent [pollerGood] 0 0 evW).1 =
        Action.acquire :: Action.setLastCheck evW.currentStat.mtimeMs ::
          Action.pollCall (evW.prevStat.mtimeMs - 30000) true ::
          inner ++ Action.trimCaches :: rest ∧
      (∀ a ∈ inner, isPollAct a = true) ∧
      (handleChangeEvent [pollerGood] 0 0 evW).2 = evW.currentStat.mtimeMs :=
  handleChangeEvent_fresh_change [pollerGood] 0 0 evW (by decide) rfl

/-- Claim C7 (confirmed): the watermark is monotonically non-decreasing
across a handler execution, every watermark write in the handler trace
happens while the coordination lock is held, and the only other watermark
mutation is the explicit reset to 0 performed at the very beginning of
`start()`, before the change notifier is started. -/
theorem lastCheck_monotone_guarded (pollers pollers2 : List IMessagePoller)
    (w : Nat) (lc : Int) (ev : FileChangeEvent) (now : Int) (mtimes : List Int) :
    lc ≤ (handleChangeEvent pollers w lc ev).2 ∧
    heldDuring (handleChangeEvent pollers w lc ev).1 false = true ∧
    (start pollers2 now mtimes).2 = 0 ∧
    (start pollers2 now mtimes).1.head? = some (Action.setLastCheck 0) := by
  refine ⟨?_, ?_, ?_, ?_⟩
  · by_cases hgt : ev.currentStat.mtimeMs > lc
    · rcases hpoll : poll pollers (ev.prevStat.mtimeMs - 30000) true with ⟨acts, err⟩
      cases err <;> simp [handleChangeEvent, hgt, hpoll] <;> omega
    · simp [handleChangeEvent, hgt]
  · by_cases hgt : ev.currentStat.mtimeMs > lc
    · rcases hpoll : poll pollers (ev.prevStat.mtimeMs - 30000) true with ⟨acts, err⟩
      have hacts : ∀ a ∈ acts, isPollAct a = true := by
        have h2 := poll_acts pollers (ev.prevStat.mtimeMs - 30000) true
        rw [hpoll] at h2
        exact h2
      cases err with
      | none =>
        by_cases hw : 0 < w <;>
          simp [handleChangeEvent, hgt, hpoll, hw, heldDuring,
            heldDuring_pollActs acts hacts]
      | some e =>
        simp [handleChangeEvent, hgt, hpoll, heldDuring,
          heldDuring_pollActs acts hacts]
    · simp [handleChangeEvent, hgt, heldDuring]
  · rcases hpoll : poll pollers2 (getEarliestModifiedDate now mtimes - 60000) false with ⟨acts, err⟩
    cases err <;> simp [start, hpoll]
  · rcases hpoll : poll pollers2 (getEarliestModifiedDate now mtimes - 60000) false with ⟨acts, err⟩
    cases err <;> simp [start, hpoll]

/-- Claim C8 (corrected): in an emitting cycle, when other callers are
waiting on the lock the fixed 100 ms delay is inserted before the lock is
released (the trace ends with `wait 100` immediately followed by `release`,
and neither occurs earlier), so the next waiting caller proceeds only after
the delay; when no callers are waiting, no delay is inserted at all. -/
theorem settle_delay_before_release (pollers : List IMessagePoller) (w : Nat)
    (lc : Int) (ev : FileChangeEvent) (hgt : lc < ev.currentStat.mtimeMs)
    (hok : (poll pollers (ev.prevStat.mtimeMs - 30000) true).2 = none) :
    (0 < w → ∃ pre,
      (handleChangeEvent pollers w lc ev).1 = pre ++ [Action.wait 100, Action.release] ∧
      Action.release ∉ pre ∧ Action.wait 100 ∉ pre) ∧
    (w = 0 → ∀ ms, Action.wait ms ∉ (handleChangeEvent pollers w lc ev).1) := by
  rcases hpoll : poll pollers (ev.prevStat.mtimeMs - 30000) true with ⟨acts, err⟩
  rw [hpoll] at hok
  simp only at hok
  subst hok
  have hacts := poll_acts pollers (ev.prevStat.mtimeMs - 30000) true
  rw [hpoll] at hacts
  constructor
  · intro hw
    refine ⟨Action.acquire :: Action.setLastCheck ev.currentStat.mtimeMs ::
      Action.pollCall (ev.prevStat.mtimeMs - 30000) true ::
      acts ++ [Action.trimCaches], ?_, ?_, ?_⟩
    · simp [handleChangeEvent, hgt, hpoll, hw, List.append_assoc]
    · intro hmem
      simp [List.mem_cons, List.mem_append] at hmem
      exact not_mem_of_pollActs acts hacts (by simp [isPollAct]) hmem
    · intro hmem
      simp [List.mem_cons, List.mem_append] at hmem
      exact not_mem_of_pollActs acts hacts (by simp [isPollAct]) hmem
  · intro hw0 ms
    subst hw0
    intro hmem
    simp [handleChangeEvent, hgt, hpoll] at hmem
    exact not_mem_of_pollActs acts hacts (by simp [isPollAct]) hmem

/-- Witness for `settle_delay_before_release` at the concrete event `evW`
with one waiter. -/
theorem settle_delay_before_release_witness :
    (0 < 1 → ∃ pre,
      (handleChangeEvent [pollerGood] 1 0 evW).1 = pre ++ [Action.wait 100, Action.release] ∧
      Action.release ∉ pre ∧ Action.wait 100 ∉ pre) ∧
    ((1 : Nat) = 0 → ∀ ms, Action.wait ms ∉ (handleChangeEvent [pollerGood] 1 0 evW).1) :=
  settle_delay_before_release [pollerGood] 1 0 evW (by decide) rfl

/-- Claim C2 counterexample: with a first poller that throws and a second
that would succeed (registry length 2), the failing cycle invokes only one
poller, never releases the lock, never trims the caches, never emits the
second poller's result, and propagates the thrown error. -/
theorem poller_failure_cex :
    countPollerInvokes (handleChangeEvent [pollerBad, pollerGood] 0 0 evW).1 = 1 ∧
    [pollerBad, pollerGood].length = 2 ∧
    Action.release ∉ (handleChangeEvent [pollerBad, pollerGood] 0 0 evW).1 ∧
    Action.trimCaches ∉ (handleChangeEvent [pollerBad, pollerGood] 0 0 evW).1 ∧
    Action.emitEvent "new-message" 7 ∉ (handleChangeEvent [pollerBad, pollerGood] 0 0 evW).1 ∧
    Action.throwErr "db locked" ∈ (handleChangeEvent [pollerBad, pollerGood] 0 0 evW).1 := by
  decide

/-- Claim C2 (corrected): when a poller's `poll(after)` call throws during an
emitting cycle, the exception propagates out of the poll loop: the pollers
before it are invoked, the failing poller is invoked, no later poller is
invoked (the invocation count stops at the failing poller), the caches are
not trimmed, and the coordination lock is not released for that cycle; the
thrown error escapes the handler body. -/
theorem poller_failure_aborts_cycle (ps1 ps2 : List IMessagePoller)
    (bad : IMessagePoller) (w : Nat) (lc : Int) (ev : FileChangeEvent) (e : String)
    (hgt : lc < ev.currentStat.mtimeMs)
    (hok : (poll ps1 (ev.prevStat.mtimeMs - 30000) true).2 = none)
    (hbad : bad (ev.prevStat.mtimeMs - 30000) = Except.error e) :
    countPollerInvokes (handleChangeEvent (ps1 ++ bad :: ps2) w lc ev).1 = ps1.length + 1 ∧
    Action.release ∉ (handleChangeEvent (ps1 ++ bad :: ps2) w lc ev).1 ∧
    Action.trimCaches ∉ (handleChangeEvent (ps1 ++ bad :: ps2) w lc ev).1 ∧
    Action.throwErr e ∈ (handleChangeEvent (ps1 ++ bad :: ps2) w lc ev).1 := by
  have hfull : poll (ps1 ++ bad :: ps2) (ev.prevStat.mtimeMs - 30000) true =
      ((poll ps1 (ev.prevStat.mtimeMs - 30000) true).1 ++
        [Action.pollerInvoke (ev.prevStat.mtimeMs - 30000)], some e) := by
    rw [poll_append ps1 (bad :: ps2) (ev.prevStat.mtimeMs - 30000) true hok,
      poll_error_head bad ps2 (ev.prevStat.mtimeMs - 30000) true e hbad]
  have hacts := poll_acts ps1 (ev.prevStat.mtimeMs - 30000) true
  have htrace : (handleChangeEvent (ps1 ++ bad :: ps2) w lc ev).1 =
      Action.acquire :: Action.setLastCheck ev.currentStat.mtimeMs ::
        Action.pollCall (ev.prevStat.mtimeMs - 30000) true ::
        ((poll ps1 (ev.prevStat.mtimeMs - 30000) true).1 ++
          [Action.pollerInvoke (ev.prevStat.mtimeMs - 30000)]) ++
        [Action.throwErr e] := by
    simp [handleChangeEvent, hgt, hfull]
  refine ⟨?_, ?_, ?_, ?_⟩
  · rw [htrace]
    have hcount := poll_count ps1 (ev.prevStat.mtimeMs - 30000) true hok
    simp [countPollerInvokes, List.filter_cons, List.filter_append, isPollerInvoke] at hcount ⊢
    omega
  · rw [htrace]
    intro hmem
    simp [List.mem_cons, List.mem_append] at hmem
    exact not_mem_of_pollActs _ hacts (by simp [isPollAct]) hmem
  · rw [htrace]
    intro hmem
    simp [List.mem_cons, List.mem_append] at hmem
    exact not_mem_of_pollActs _ hacts (by simp [isPollAct]) hmem
  · rw [htrace]
    simp

/-- Witness for `poller_failure_aborts_cycle` with an empty prefix, the
throwing poller `pollerBad` and one never-reached poller after it. -/
theorem poller_failure_aborts_cycle_witness :
    countPollerInvokes (handleChangeEvent ([] ++ pollerBad :: [pollerGood]) 0 0 evW).1 =
      List.length ([] : List IMessagePoller) + 1 ∧
    Action.release ∉ (handleChangeEvent ([] ++ pollerBad :: [pollerGood]) 0 0 evW).1 ∧
    Action.trimCaches ∉ (handleChangeEvent ([] ++ pollerBad :: [pollerGood]) 0 0 evW).1 ∧
    Action.throwErr "db locked" ∈ (handleChangeEvent ([] ++ pollerBad :: [pollerGood]) 0 0 evW).1 :=
  poller_failure_aborts_cycle [] [pollerGood] pollerBad 0 0 evW "db locked"
    (by decide) rfl rfl

/-- Claim C4 (corrected): `start()` resets the watermark to 0 (not to the
minimum watched mtime minus 60000) and performs one poll whose `after`
timestamp is `getEarliestModifiedDate() - 60000` with emission disabled (no
event is emitted anywhere in the start trace), before starting the change
notifier. -/
theorem start_seed_behavior (pollers : List IMessagePoller) (now : Int)
    (mtimes : List Int)
    (hok : (poll pollers (getEarliestModifiedDate now mtimes - 60000) false).2 = none) :
    (start pollers now mtimes).2 = 0 ∧
    (∀ a ∈ (start pollers now mtimes).1, isEmitEvent a = false) ∧
    ∃ inner,
      (start pollers now mtimes).1 =
        Action.setLastCheck 0 :: Action.setStopped false ::
          Action.pollCall (getEarliestModifiedDate now mtimes - 60000) false ::
          inner ++ [Action.watcherStart] ∧
      (∀ a ∈ inner, isPollAct a = true) := by
  rcases hpoll : poll pollers (getEarliestModifiedDate now mtimes - 60000) false with ⟨acts, err⟩
  rw [hpoll] at hok
  simp only at hok
  subst hok
  have hemit := poll_no_emit pollers (getEarliestModifiedDate now mtimes - 60000)
  rw [hpoll] at hemit
  have hacts := poll_acts pollers (getEarliestModifiedDate now mtimes - 60000) false
  rw [hpoll] at hacts
  refine ⟨?_, ?_, acts, ?_, hacts⟩
  · simp [start, hpoll]
  · intro a ha
    simp [start, hpoll] at ha
    rcases ha with rfl | rfl | rfl | ha | rfl
    · rfl
    · rfl
    · rfl
    · exact hemit a ha
    · rfl
  · simp [start, hpoll]

/-- Witness for `start_seed_behavior` at current time 100000 with one watched
path of mtime 90000 and one succeeding poller. -/
theorem start_seed_behavior_witness :
    (start [pollerGood] 100000 [90000]).2 = 0 ∧
    (∀ a ∈ (start [pollerGood] 100000 [90000]).1, isEmitEvent a = false) ∧
    ∃ inner,
      (start [pollerGood] 100000 [90000]).1 =
        Action.setLastCheck 0 :: Action.setStopped false ::
          Action.pollCall (getEarliestModifiedDate 100000 [90000] - 60000) false ::
          inner ++ [Action.watcherStart] ∧
      (∀ a ∈ inner, isPollAct a = true) :=
  start_seed_behavior [pollerGood] 100000 [90000] rfl

end IMessageListener

lemma debounceRun_no_fire {α : Type} (hi : Int) :
    ∀ (l : List (Int × α)) (ft : Int) (pa : α), hi < ft →
      (∀ p ∈ l, p.1 ≤ hi ∧ hi < p.1 + 500) →
      debounceRun 500 (some (ft, pa)) l =
        [l.foldl (fun _ p => (p.1 + 500, p.2)) (ft, pa)] := by
  intro l
  induction l with
  | nil =>
    intro ft pa _ _
    simp [debounceRun]
  | cons q rest ih =>
    intro ft pa hft hmem
    obtain ⟨t, a⟩ := q
    have hq := hmem (t, a) (List.mem_cons_self _ _)
    have hnot : ¬ (ft ≤ t) := by
      simp only at hq
      omega
    rw [debounceRun, if_neg hnot,
      ih (t + 500) a (by simp only at hq; omega)
        (fun p hp => hmem p (List.mem_cons_of_mem _ hp))]
    simp

lemma foldl_replace_getLast {α : Type} :
    ∀ (l : List (Int × α)) (x1 : Int) (x2 : α),
      ∃ last, ((x1, x2) :: l).getLast? = some last ∧
        l.foldl (fun (_ : Int × α) p => (p.1 + 500, p.2)) (x1 + 500, x2) =
          (last.1 + 500, last.2) := by
  intro l
  induction l with
  | nil =>
    intro x1 x2
    exact ⟨(x1, x2), rfl, rfl⟩
  | cons y rest ih =>
    intro x1 x2
    obtain ⟨y1, y2⟩ := y
    obtain ⟨last, h1, h2⟩ := ih y1 y2
    refine ⟨last, ?_, ?_⟩
    · rw [List.getLast?_cons_cons]
      exact h1
    · simpa using h2

/-- Claim C5 (confirmed, against the spec model of the missing debounce
decorator): when all invocations of the debounced `handleChangeEvent` arrive
inside a window smaller than the 500 ms debounce wait, exactly one execution
of the handler body fires, and it fires with the arguments of the last
invocation of the burst. -/
theorem debounce_burst_collapse (inv : List (Int × FileChangeEvent)) (lo hi : Int)
    (hne : inv ≠ []) (hmem : ∀ p ∈ inv, lo ≤ p.1 ∧ p.1 ≤ hi) (hwin : hi - lo < 500) :
    ∃ last, inv.getLast? = some last ∧
      debounceRun 500 none inv = [(last.1 + 500, last.2)] := by
  match inv, hne with
  | (t1, a1) :: rest, _ =>
    have h1 := hmem (t1, a1) (List.mem_cons_self _ _)
    simp only at h1
    have hstep : debounceRun 500 (none : Option (Int × FileChangeEvent)) ((t1, a1) :: rest) =
        debounceRun 500 (some (t1 + 500, a1)) rest := by
      rw [debounceRun]
    have hrest : ∀ p ∈ rest, p.1 ≤ hi ∧ hi < p.1 + 500 := by
      intro p hp
      have hh := hmem p (List.mem_cons_of_mem _ hp)
      exact ⟨hh.2, by omega⟩
    have hfire := debounceRun_no_fire hi rest (t1 + 500) a1 (by omega) hrest
    obtain ⟨last, hl1, hl2⟩ := foldl_replace_getLast rest t1 a1
    exact ⟨last, hl1, by rw [hstep, hfire, hl2]⟩

/-- Witness for `debounce_burst_collapse`: three notifications at times 0,
100 and 499 (window 499 ms, smaller than the 500 ms wait) collapse to one
execution with the last notification's arguments. -/
theorem debounce_burst_collapse_witness :
    ∃ last, [((0 : Int), evW), (100, evW), (499, ⟨"chat.db-wal", ⟨60000⟩, ⟨110000⟩⟩)].getLast? = some last ∧
      debounceRun 500 none
        [((0 : Int), evW), (100, evW), (499, ⟨"chat.db-wal", ⟨60000⟩, ⟨110000⟩⟩)] =
        [(last.1 + 500, last.2)] :=
  debounce_burst_collapse
    [((0 : Int), evW), (100, evW), (499, ⟨"chat.db-wal", ⟨60000⟩, ⟨110000⟩⟩)]
    0 499 (by decide) (by decide) (by decide)

lemma natChars_mem (n : Nat) :
    ∀ c ∈ natChars n, ∃ d, d < 10 ∧ c = Char.ofNat (48 + d) := by
  induction n using Nat.strong_induction_on with
  | _ n ih =>
    intro c hc
    rw [natChars] at hc
    split at hc
    · next h =>
      simp at hc
      exact ⟨n, h, hc⟩
    · next h =>
      rcases List.mem_append.mp hc with h1 | h1
      · exact ih (n / 10) (Nat.div_lt_self (by omega) (by omega)) c h1
      · simp at h1
        exact ⟨n % 10, Nat.mod_lt _ (by omega), h1⟩

lemma colon_not_mem_natChars (n : Nat) : ':' ∉ natChars n := by
  intro hmem
  obtain ⟨d, hd, hc⟩ := natChars_mem n ':' hmem
  have hne : ∀ d, d < 10 → Char.ofNat (48 + d) ≠ ':' := by decide
  exact hne d hd hc.symm

lemma hyphen_not_mem_natChars (n : Nat) : '-' ∉ natChars n := by
  intro hmem
  obtain ⟨d, hd, hc⟩ := natChars_mem n '-' hmem
  have hne : ∀ d, d < 10 → Char.ofNat (48 + d) ≠ '-' := by decide
  exact hne d hd hc.symm

lemma natChars_ne_nil (n : Nat) : natChars n ≠ [] := by
  rw [natChars]
  split
  · simp
  · simp

lemma natChars_eq (n : Nat) : natChars n =
    if n < 10 then [Char.ofNat (48 + n)]
    else natChars (n / 10) ++ [Char.ofNat (48 + n % 10)] := by
  rw [natChars]
  by_cases h : n < 10
  · rw [dif_pos h, if_pos h]
  · rw [dif_neg h, if_neg h]


lemma natChars_inj : ∀ n m : Nat, natChars n = natChars m → n = m := by
  have hinj : ∀ a, a < 10 → ∀ b, b < 10 →
      Char.ofNat (48 + a) = Char.ofNat (48 + b) → a = b := by decide
  intro n
  induction n using Nat.strong_induction_on with
  | _ n ih =>
    intro m h
    by_cases hn : n < 10 <;> by_cases hm : m < 10
    · rw [natChars_eq n, natChars_eq m, if_pos hn, if_pos hm] at h
      simp at h
      exact hinj n hn m hm h
    · exfalso
      rw [natChars_eq n, natChars_eq m, if_pos hn, if_neg hm] at h
      rcases hcon : natChars (m / 10) with _ | ⟨c0, cs⟩
      · exact natChars_ne_nil (m / 10) hcon
      · rw [hcon] at h
        have hlen := congrArg List.length h
        simp only [List.length_cons, List.length_append, List.length_nil] at hlen
        omega
    · exfalso
      rw [natChars_eq n, natChars_eq m, if_neg hn, if_pos hm] at h
      rcases hcon : natChars (n / 10) with _ | ⟨c0, cs⟩
      · exact natChars_ne_nil (n / 10) hcon
      · rw [hcon] at h
        have hlen := congrArg List.length h
        simp only [List.length_cons, List.length_append, List.length_nil] at hlen
        omega
    · rw [natChars_eq n, natChars_eq m, if_neg hn, if_neg hm] at h
      obtain ⟨h1, h2⟩ := List.append_inj' h rfl
      have hdiv := ih (n / 10) (Nat.div_lt_self (by omega) (by omega)) (m / 10) h1
      simp at h2
      have hmod := hinj (n % 10) (Nat.mod_lt _ (by omega)) (m % 10) (Nat.mod_lt _ (by omega)) h2
      omega

lemma colon_not_mem_intChars (i : Int) : ':' ∉ intChars i := by
  unfold intChars
  split
  · intro hmem
    rcases List.mem_cons.mp hmem with h | h
    · exact absurd h (by decide)
    · exact colon_not_mem_natChars _ h
  · exact colon_not_mem_natChars _

lemma intChars_inj : ∀ i j : Int, intChars i = intChars j → i = j := by
  intro i j h
  unfold intChars at h
  split at h <;> split at h
  · next hi hj =>
    simp at h
    have := natChars_inj _ _ h
    omega
  · next hi hj =>
    exfalso
    have hmem : '-' ∈ natChars j.toNat := by
      rw [← h]
      exact List.mem_cons_self _ _
    exact hyphen_not_mem_natChars _ hmem
  · next hi hj =>
    exfalso
    have hmem : '-' ∈ natChars i.toNat := by
      rw [h]
      exact List.mem_cons_self _ _
    exact hyphen_not_mem_natChars _ hmem
  · next hi hj =>
    have := natChars_inj _ _ h
    omega

lemma split_at_colon : ∀ (xs ys xs' ys' : List Char),
    ':' ∉ xs → ':' ∉ xs' → xs ++ ':' :: ys = xs' ++ ':' :: ys' →
    xs = xs' ∧ ys = ys' := by
  intro xs
  induction xs with
  | nil =>
    intro ys xs' ys' _ hx' h
    cases xs' with
    | nil =>
      simp at h
      exact ⟨rfl, h⟩
    | cons c rest =>
      exfalso
      simp at h
      apply hx'
      rw [h.1]
      exact List.mem_cons_self _ _
  | cons c rest ih =>
    intro ys xs' ys' hx hx' h
    cases xs' with
    | nil =>
      exfalso
      simp at h
      apply hx
      rw [← h.1]
      exact List.mem_cons_self _ _
    | cons c' rest' =>
      simp only [List.cons_append, List.cons.injEq] at h
      have hxrest : ':' ∉ rest := fun hm => hx (List.mem_cons_of_mem _ hm)
      have hxrest' : ':' ∉ rest' := fun hm => hx' (List.mem_cons_of_mem _ hm)
      obtain ⟨e1, e2⟩ := ih ys rest' ys' hxrest hxrest' h.2
      exact ⟨by rw [h.1, e1], e2⟩

lemma key_decomp (g1 d1 r1 g2 d2 r2 : List Char)
    (hd1 : ':' ∉ d1) (hr1 : ':' ∉ r1) (hd2 : ':' ∉ d2) (hr2 : ':' ∉ r2)
    (h : g1 ++ ':' :: d1 ++ ':' :: r1 = g2 ++ ':' :: d2 ++ ':' :: r2) :
    g1 = g2 ∧ d1 = d2 ∧ r1 = r2 := by
  have hrev : r1.reverse ++ ':' :: (d1.reverse ++ ':' :: g1.reverse) =
      r2.reverse ++ ':' :: (d2.reverse ++ ':' :: g2.reverse) := by
    have hc := congrArg List.reverse h
    simpa [List.reverse_append, List.append_assoc] using hc
  obtain ⟨e1, e2⟩ := split_at_colon r1.reverse (d1.reverse ++ ':' :: g1.reverse)
    r2.reverse (d2.reverse ++ ':' :: g2.reverse)
    (by simpa using hr1) (by simpa using hr2) hrev
  obtain ⟨e3, e4⟩ := split_at_colon d1.reverse g1.reverse d2.reverse g2.reverse
    (by simpa using hd1) (by simpa using hd2) e2
  refine ⟨?_, ?_, ?_⟩
  · have := congrArg List.reverse e4
    simpa using this
  · have := congrArg List.reverse e3
    simpa using this
  · have := congrArg List.reverse e1
    simpa using this

lemma string_data_inj {s t : String} (h : s.data = t.data) : s = t := by
  cases s
  cases t
  simp only at h
  rw [h]

/-- Claim C9 (confirmed): the dedup cache key is `guid:delivered:read` with
the delivered and read times taken as 0 when absent; two messages produce the
same key if and only if their guid, delivered time and read time (each
coalesced to 0 when absent) all agree — so a row whose delivered or read
time changes gets a fresh key, while an unchanged row does not. -/
theorem getCacheName_eq_iff (m1 m2 : Message) :
    getCacheName m1 = getCacheName m2 ↔
      (m1.guid = m2.guid ∧ m1.dateDelivered.getD 0 = m2.dateDelivered.getD 0 ∧
        m1.dateRead.getD 0 = m2.dateRead.getD 0) := by
  constructor
  · intro h
    have hdata : m1.guid.data ++ ':' :: intChars (m1.dateDelivered.getD 0) ++
        ':' :: intChars (m1.dateRead.getD 0) =
        m2.guid.data ++ ':' :: intChars (m2.dateDelivered.getD 0) ++
        ':' :: intChars (m2.dateRead.getD 0) := by
      have hc := congrArg String.data h
      simpa [getCacheName] using hc
    obtain ⟨e1, e2, e3⟩ := key_decomp _ _ _ _ _ _
      (colon_not_mem_intChars _) (colon_not_mem_intChars _)
      (colon_not_mem_intChars _) (colon_not_mem_intChars _) hdata
    exact ⟨string_data_inj e1, intChars_inj _ _ e2, intChars_inj _ _ e3⟩
  · intro h
    obtain ⟨h1, h2, h3⟩ := h
    unfold getCacheName
    rw [h1, h2, h3]
